import Mathlib

/-!
Shallow embedding of the table-grid reconstruction (`Table::span`, `Table::pad`
in `src/table.rs`), the arena tree (`SimpleTree` in `src/misc/tree/simple_tree.rs`)
and the auto-span filtering stage of the orchestrator
(`TableExtractor::extract_tables` in `src/extractors/table.rs`),
together with proofs about them.

Machine integers (`u16` spans, `i32` coordinates, `usize` indices) are modelled
as `Nat`: all quantities involved are non-negative counts and no arithmetic in
the modelled code can overflow their ranges in any behaviour the theorems
depend on.  Rust `HashMap<(i32, i32), Cell>` is modelled as an association list
with key-replacing insertion.  `.clone()` is the identity on values.
-/

/-- Modelled from the spec: `FormattingElement`{tag, start, end, attrs} of the
rich-text component; its definition (`src/text.rs`) is not under `src/`.
Only its value equality matters for the table claims. -/
structure FormattingElement where
  tag : String
  start : Nat
  «end» : Nat
  attrs : List (String × String)
deriving DecidableEq, Repr

/-- The arena tree of `src/misc/tree/simple_tree.rs` (`SimpleTree<N>`):
a root index, a flat node list and a parallel list of child-index lists. -/
structure SimpleTree (N : Type) where
  root : Nat
  nodes : List N
  node2children : List (List Nat)
deriving DecidableEq, Repr

namespace SimpleTree

variable {N : Type}

/-- `SimpleTree::empty`. -/
def empty : SimpleTree N :=
  { root := 0, nodes := [], node2children := [] }

/-- `SimpleTree::new`. -/
def new (node : N) : SimpleTree N :=
  { root := 0, nodes := [node], node2children := [[]] }

/-- `SimpleTree::len`. -/
def len (t : SimpleTree N) : Nat :=
  t.nodes.length

/-- `SimpleTree::add_node`: appends the node with a fresh children list and
returns the updated tree together with the new node's id. -/
def add_node (t : SimpleTree N) (node : N) : SimpleTree N × Nat :=
  ({ t with nodes := t.nodes ++ [node], node2children := t.node2children ++ [[]] },
   t.nodes.length)

/-- `SimpleTree::add_child`: if the child was the root, the parent becomes the
new root; the child id is pushed onto the parent's children list. -/
def add_child (t : SimpleTree N) (parent_id child_id : Nat) : SimpleTree N :=
  { t with
    root := if child_id = t.root then parent_id else t.root,
    node2children :=
      t.node2children.set parent_id (t.node2children.getD parent_id [] ++ [child_id]) }

/-- `SimpleTree::merge_subtree`: append `subtree`'s nodes, remap its child ids
by the id offset, append its children lists, then attach its root under
`parent_id`. -/
def merge_subtree (t : SimpleTree N) (parent_id : Nat) (subtree : SimpleTree N) :
    SimpleTree N :=
  let id_offset := t.nodes.length
  let nodes := t.nodes ++ subtree.nodes
  let mapped := subtree.node2children.map (List.map (fun child_id => child_id + id_offset))
  let n2c := t.node2children ++ mapped
  { root := t.root,
    nodes := nodes,
    node2children := n2c.set parent_id (n2c.getD parent_id [] ++ [subtree.root + id_offset]) }

/-- `SimpleTree::merge_subtree_no_root`: append `subtree`'s nodes except its
root, remap child ids (ids above the dropped root shift down by one), splice
the root's children list onto `parent_id`, then append the remaining children
lists. -/
def merge_subtree_no_root (t : SimpleTree N) (parent_id : Nat) (subtree : SimpleTree N) :
    SimpleTree N :=
  let id_offset := t.nodes.length
  let subtree_root := subtree.root
  let nodes := t.nodes ++ subtree.nodes.eraseIdx subtree_root
  let mapped := subtree.node2children.map (List.map
    (fun child_id => if subtree_root < child_id then child_id + id_offset - 1
                     else child_id + id_offset))
  let n2c1 := t.node2children.set parent_id
    (t.node2children.getD parent_id [] ++ mapped.getD subtree_root [])
  { root := t.root,
    nodes := nodes,
    node2children := n2c1 ++ mapped.eraseIdx subtree_root }

/-- The structural invariant of `SimpleTree`: the node list and the
children-list list have the same length, so every id below `len` indexes both. -/
def wf (t : SimpleTree N) : Prop :=
  t.nodes.length = t.node2children.length

instance (t : SimpleTree N) : Decidable t.wf := by
  unfold wf; infer_instance

/-- Membership of a parent-child edge in the tree. -/
def hasEdge (t : SimpleTree N) (a b : Nat) : Prop :=
  b ∈ t.node2children.getD a []

instance (t : SimpleTree N) (a b : Nat) : Decidable (t.hasEdge a b) := by
  unfold hasEdge; infer_instance

end SimpleTree

/-- Modelled from the spec: `RichText`{text, formatting} of the rich-text
component (`src/text.rs` is not under `src/`); `RichText::empty()` is the blank
rich text. Only value equality and `empty` matter for the table claims. -/
structure RichText where
  text : String
  formatting : SimpleTree FormattingElement
deriving DecidableEq, Repr

/-- Modelled from the spec: `RichText::empty()`, a blank rich text. -/
def RichText.empty : RichText :=
  { text := "", formatting := SimpleTree.empty }

/-- Modelled from the spec: `ContentHierarchy`{level, heading, content_before,
content_after} (`src/context.rs` is not under `src/`). Tables only store a
list of these. -/
structure ContentHierarchy where
  level : Nat
  heading : RichText
  content_before : List RichText
  content_after : List RichText
deriving DecidableEq, Repr

/-- `Cell` of `src/table.rs`: `u16` spans are modelled as `Nat`, the attrs
`HashMap` as an association list. -/
structure Cell where
  is_header : Bool
  rowspan : Nat
  colspan : Nat
  attrs : List (String × String)
  value : RichText
  html : String
deriving DecidableEq, Repr

/-- `Row` of `src/table.rs`. -/
structure Row where
  cells : List Cell
  attrs : List (String × String)
deriving DecidableEq, Repr

/-- `Table` of `src/table.rs`. -/
structure Table where
  id : String
  url : String
  caption : String
  attrs : List (String × String)
  context : List ContentHierarchy
  rows : List Row
deriving DecidableEq, Repr

/-- Modelled from the spec: the error kinds of `src/error.rs` (not under
`src/`): span overflow, rowspan/colspan collision, plus the other kinds the
spec lists (attribute-parse, URL-resolution) which `Table::span` never raises. -/
inductive TableExtractorError where
  | invalidCellSpanError (raw : String)
  | overlapSpanError (raw : String)
  | attributeParseError (raw : String)
  | urlResolutionError (raw : String)
deriving DecidableEq, Repr

/-- The `pending_ops : HashMap<(i32, i32), Cell>` of `Table::span`, modelled as
an association list with key-replacing insertion. -/
abbrev Pending : Type := List ((Nat × Nat) × Cell)

namespace Pending

/-- `HashMap::get` / `contains_key`. -/
def find (m : Pending) (k : Nat × Nat) : Option Cell :=
  (List.find? (fun e => e.1 = k) m).map Prod.snd

/-- `HashMap::remove` (the map never holds duplicate keys, so erasing the
first match erases the key). -/
def erase (m : Pending) (k : Nat × Nat) : Pending :=
  List.eraseP (fun e => e.1 = k) m

/-- `HashMap::insert`: replaces any existing value at the key. -/
def insert (m : Pending) (k : Nat × Nat) (v : Cell) : Pending :=
  (k, v) :: erase m k

end Pending

/-! ## `Table::span` (src/table.rs lines 37-136) -/

/-- The inner rowspan-debt loop of the column-count pass: for `j in
1..cell.rowspan`, bump `cols[i + j]` when in range. -/
def addRowspanDebt (i : Nat) (cols : List Nat) (cell : Cell) : List Nat :=
  (List.range' 1 (cell.rowspan - 1)).foldl
    (fun cs j => if i + j < cs.length then cs.set (i + j) (cs.getD (i + j) 0 + 1) else cs)
    cols

/-- One iteration of the column-count pass for the row `ir.2` at index
`ir.1`: add the row's own cell count, then the rowspan debts of its cells. -/
def computeColsStep (cols : List Nat) (ir : Nat × Row) : List Nat :=
  let cols1 := cols.set ir.1 (cols.getD ir.1 0 + ir.2.cells.length)
  ir.2.cells.foldl (addRowspanDebt ir.1) cols1

/-- The `cols` vector after the first pass of `Table::span`: per row its own
cell count plus one for every earlier-row cell whose rowspan reaches it. -/
def computeCols (rows : List Row) : List Nat :=
  rows.enum.foldl computeColsStep (List.replicate rows.length 0)

/-- `max_ncols`: the maximum entry of `cols`
(`cols.iter().enumerate().max_by_key(|x| x.1).unwrap().1`); on the non-empty
lists of naturals it is applied to, the fold below is that maximum. -/
def maxNcols (cols : List Nat) : Nat :=
  cols.foldl max 0

/-- Body of the per-cell drain loop (lines 82-85):
`while pending_ops.contains_key(&(pi, pj))`, move the pending cell into the
row and advance `pj`.  The loop terminates because each iteration removes one
entry of the finite map; the structural `fuel` argument is an upper bound on
the iteration count (one more than the map size), shown exact by
`drain_unfold` below. -/
def drainGo : Nat → Pending → Nat → Nat → List Cell × Nat × Pending
  | 0, m, _, pj => ([], pj, m)
  | fuel + 1, m, pi, pj =>
    match Pending.find m (pi, pj) with
    | none => ([], pj, m)
    | some c =>
      let r := drainGo fuel (Pending.erase m (pi, pj)) pi (pj + 1)
      (c :: r.1, r.2)

/-- The per-cell drain loop: drained cells, final `pj`, remaining map. -/
def drain (m : Pending) (pi pj : Nat) : List Cell × Nat × Pending :=
  drainGo (m.length + 1) m pi pj

/-- Body of the end-of-row drain loop (lines 113-117), exactly as written in
the source: the key looked up is `(pj, pj)`, and the loop also requires
`pj < max_ncols`. -/
def drainEndGo : Nat → Pending → Nat → Nat → List Cell × Nat × Pending
  | 0, m, _, pj => ([], pj, m)
  | fuel + 1, m, pj, max_ncols =>
    match Pending.find m (pj, pj) with
    | some c =>
      if pj < max_ncols then
        let r := drainEndGo fuel (Pending.erase m (pj, pj)) (pj + 1) max_ncols
        (c :: r.1, r.2)
      else ([], pj, m)
    | none => ([], pj, m)

/-- The end-of-row drain loop of `Table::span`. -/
def drainEnd (m : Pending) (pj max_ncols : Nat) : List Cell × Nat × Pending :=
  drainEndGo (m.length + 1) m pj max_ncols

/-- Registration of a placed cell as pending for the next `rowspan - 1` rows
(lines 94-96): `for ioffset in 1..ocell.rowspan`, insert at
`(pi + ioffset, pj)`. -/
def insertPending (m : Pending) (pi pj rowspan : Nat) (cell : Cell) : Pending :=
  (List.range' 1 (rowspan - 1)).foldl
    (fun m' ioffset => Pending.insert m' (pi + ioffset, pj) cell) m

/-- The colspan-expansion loop of one cell (lines 88-110). `cell` is the
span-1 clone, `rowspan`/the fuel are the original cell's `rowspan`/`colspan`.
State: (row built so far, `pj`, pending map). A collision with a pending cell
is `OverlapSpanError`; reaching `max_ncols` is tolerated (loop exits) only at
the row's last cell, otherwise `InvalidCellSpanError`. -/
def placeLoop (max_ncols : Nat) (is_last : Bool) (pi : Nat) (cell : Cell) (rowspan : Nat) :
    Nat → List Cell × Nat × Pending → Except TableExtractorError (List Cell × Nat × Pending)
  | 0, st => .ok st
  | n + 1, (new_row, pj, m) =>
    match Pending.find m (pi, pj) with
    | some _ => .error (.overlapSpanError "")
    | none =>
      let new_row := new_row ++ [cell]
      let m := insertPending m pi pj rowspan cell
      let pj := pj + 1
      if max_ncols ≤ pj then
        if is_last then .ok (new_row, pj, m) else .error (.invalidCellSpanError "")
      else
        placeLoop max_ncols is_last pi cell rowspan n (new_row, pj, m)

/-- Processing of one original cell (lines 76-111): clone with spans reset to
1, drain the pending cells owed at the cursor, then expand the colspan. -/
def processCell (max_ncols pi : Nat) (is_last : Bool) (ocell : Cell)
    (st : List Cell × Nat × Pending) :
    Except TableExtractorError (List Cell × Nat × Pending) :=
  let cell := { ocell with colspan := 1, rowspan := 1 }
  let d := drain st.2.2 pi st.2.1
  placeLoop max_ncols is_last pi cell ocell.rowspan ocell.colspan (st.1 ++ d.1, d.2.1, d.2.2)

/-- The enumerated cell loop of one row; `is_last` is
`cell_index = ncells - 1` as in the source (`cell_index != row.cells.len() - 1`). -/
def processCells (max_ncols pi ncells : Nat) :
    Nat → List Cell → List Cell × Nat × Pending →
    Except TableExtractorError (List Cell × Nat × Pending)
  | _, [], st => .ok st
  | cell_index, ocell :: rest, st => do
      let st' ← processCell max_ncols pi (cell_index = ncells - 1) ocell st
      processCells max_ncols pi ncells (cell_index + 1) rest st'

/-- Processing of one row (lines 72-123): all its cells, then the end-of-row
drain, producing the new row (with the original row attrs) and the updated
pending map. -/
def processRow (max_ncols pi : Nat) (row : Row) (m : Pending) :
    Except TableExtractorError (Row × Pending) := do
  let st ← processCells max_ncols pi row.cells.length 0 row.cells ([], 0, m)
  let d := drainEnd st.2.2 st.2.1 max_ncols
  .ok ({ cells := st.1 ++ d.1, attrs := row.attrs }, d.2.2)

/-- The row loop of `Table::span`: `pi` starts at 0 and increments per row;
the pending map is threaded through. -/
def spanRows (max_ncols : Nat) : Nat → Pending → List Row →
    Except TableExtractorError (List Row)
  | _, _, [] => .ok []
  | pi, m, row :: rest => do
      let rm ← processRow max_ncols pi row m
      let rs ← spanRows max_ncols (pi + 1) rm.2 rest
      .ok (rm.1 :: rs)

/-- `Table::span`: an empty table is returned as is; otherwise the column
count is computed and the rows are rebuilt top to bottom. Pending cells left
after the last row are dropped. -/
def Table.span (t : Table) : Except TableExtractorError Table :=
  if t.rows.length = 0 then .ok t
  else
    let cols := computeCols t.rows
    let max_ncols := maxNcols cols
    match spanRows max_ncols 0 [] t.rows with
    | .error e => .error e
    | .ok data => .ok { t with rows := data }

/-! ## `Table::pad` (src/table.rs lines 141-184) -/

/-- Body of the `while row.cells.len() < max_ncols` push loop of `Table::pad`;
the structural `fuel` bounds the iteration count (`padRowCells_unfold` below
shows the bound is never hit). -/
def padRowCellsGo (newcell : Cell) : Nat → Nat → List Cell → List Cell
  | 0, _, cells => cells
  | fuel + 1, max_ncols, cells =>
    if cells.length < max_ncols then padRowCellsGo newcell fuel max_ncols (cells ++ [newcell])
    else cells

/-- The `while row.cells.len() < max_ncols { row.cells.push(newcell.clone()) }`
loop of `Table::pad`. -/
def padRowCells (max_ncols : Nat) (newcell : Cell) (cells : List Cell) : List Cell :=
  padRowCellsGo newcell (max_ncols - cells.length) max_ncols cells

/-- The `default_cell` of `Table::pad`. -/
def defaultCell : Cell :=
  { is_header := false, rowspan := 1, colspan := 1, attrs := [],
    value := RichText.empty, html := "" }

/-- `Table::pad`: `none` on an empty or already-regular table; otherwise every
row is padded to the maximum width with clones of `default_cell` whose
`is_header` is taken from the row's last original cell. -/
def Table.pad (t : Table) : Option Table :=
  match t.rows with
  | [] => none
  | r0 :: _ =>
    let ncols := r0.cells.length
    if t.rows.all (fun row => row.cells.length = ncols) then none
    else
      let max_ncols := (t.rows.map (fun row => row.cells.length)).foldl max 0
      let rows := t.rows.map (fun r =>
        let newcell :=
          { defaultCell with is_header := (r.cells.getLast?).elim false Cell.is_header }
        { r with cells := padRowCells max_ncols newcell r.cells })
      some { t with rows := rows }

/-! ## The auto-span stage of `TableExtractor::extract_tables`
(src/extractors/table.rs lines 125-146), modelled over the per-table results
of the span step. -/

/-- The error classes the orchestrator tolerates per table:
`OverlapSpanPyError` and `InvalidCellSpanPyError`. -/
def isDroppableSpanErr (e : TableExtractorError) : Bool :=
  match e with
  | .overlapSpanError _ => true
  | .invalidCellSpanError _ => true
  | _ => false

/-- The `for (i, tbl) in tables.iter().enumerate()` loop with the `new_tables`
accumulator: an `Ok` table is kept, a droppable error skips the table, any
other error aborts the whole call (`bail!`). -/
def autoSpanLoop (acc : List Table) :
    List (Except TableExtractorError Table) → Except TableExtractorError (List Table)
  | [] => .ok acc
  | .ok t :: rest => autoSpanLoop (acc ++ [t]) rest
  | .error e :: rest =>
      if isDroppableSpanErr e then autoSpanLoop acc rest else .error e

/-- The auto-span filtering stage applied to the span results of a table
batch. -/
def autoSpanFilter (results : List (Except TableExtractorError Table)) :
    Except TableExtractorError (List Table) :=
  autoSpanLoop [] results

/-- `tbl.pad(py)?.unwrap_or(tbl)` of the auto-pad stage
(src/extractors/table.rs line 151): keep the table when `pad` returns none. -/
def padOrKeep (t : Table) : Table :=
  (Table.pad t).getD t

/-! ## Properties stated by the specification -/

/-- Every cell of the table has `colspan = 1` and `rowspan = 1`. -/
def allCellsSpanned (t : Table) : Bool :=
  t.rows.all fun r => r.cells.all fun c => c.colspan = 1 && c.rowspan = 1

/-- Every row of the table has the same number of cells. -/
def uniformRows (t : Table) : Bool :=
  match t.rows with
  | [] => true
  | r :: _ => t.rows.all fun row => row.cells.length = r.cells.length

/-! ## Concrete example tables used in the per-claim theorems and witnesses.
`exCell h rs cs tag` is a cell with header flag `h`, rowspan `rs`, colspan
`cs` and `tag` as its text and html. -/

def exCell (h : Bool) (rs cs : Nat) (tag : String) : Cell :=
  { is_header := h, rowspan := rs, colspan := cs, attrs := [],
    value := { text := tag, formatting := SimpleTree.empty }, html := tag }

def exRow (cs : List Cell) : Row := { cells := cs, attrs := [] }

def exTable (rs : List Row) : Table :=
  { id := "", url := "", caption := "", attrs := [], context := [], rows := rs }

/-- Failing input of the end-of-row drain: row 0 is `[a, b, c]` with
`rowspan 2` on `c`, so `c` is owed to row 1 at column 2; row 1 is `[d, e]`.
The column count is 3. -/
def exDrainTable : Table :=
  exTable
    [exRow [exCell false 1 1 "a", exCell false 1 1 "b", exCell false 2 1 "c"],
     exRow [exCell false 1 1 "d", exCell false 1 1 "e"]]

/-- A non-last cell whose colspan reaches the column count:
`[[A(colspan 2), B], [C, D]]`, column count 2. -/
def exOverflowMid : Table :=
  exTable
    [exRow [exCell false 1 2 "A", exCell false 1 1 "B"],
     exRow [exCell false 1 1 "C", exCell false 1 1 "D"]]

/-- The same overflow at the last cell of its row:
`[[A, B(colspan 5)], [C, D]]`, column count 2. -/
def exOverflowLast : Table :=
  exTable
    [exRow [exCell false 1 1 "A", exCell false 1 5 "B"],
     exRow [exCell false 1 1 "C", exCell false 1 1 "D"]]

/-- A rowspan=2 cell (`B` at row 0, column 1) directly above a later row's
colspan placement (`D` with colspan 2 covers columns 0 and 1 of row 1) at the
same coordinate. -/
def exOverlap : Table :=
  exTable
    [exRow [exCell false 1 1 "A", exCell false 2 1 "B", exCell false 1 1 "C"],
     exRow [exCell false 1 2 "D", exCell false 1 1 "E"]]

/-- A ragged all-span-1 table: 1 cell in a header row, 2 in the next. -/
def exRagged : Table :=
  exTable
    [exRow [exCell true 1 1 "h"],
     exRow [exCell false 1 1 "x", exCell false 1 1 "y"]]

/-- The maximum row width of a table (`self.rows.iter().map(|row|
row.cells.len()).max()`, as a fold). -/
def maxRowWidth (t : Table) : Nat :=
  (t.rows.map (fun row => row.cells.length)).foldl max 0

/-- The synthetic cell `pad` appends to the row `r`: a clone of
`default_cell` whose header flag is that of `r`'s last original cell. -/
def padCellFor (r : Row) : Cell :=
  { defaultCell with is_header := (r.cells.getLast?).elim false Cell.is_header }

/-- Example trees for the `SimpleTree` witnesses: two nodes each, the second
a child of the first. -/
def exT : SimpleTree Nat := { root := 0, nodes := [10, 20], node2children := [[1], []] }

def exS : SimpleTree Nat := { root := 0, nodes := [30, 40], node2children := [[1], []] }

/-! # Proofs -/

/-! ## Loop unfolding lemmas: the structural fuel in `drainGo`, `drainEndGo`
and `padRowCellsGo` is always sufficient, so the functions satisfy exactly the
recurrences of the `while` loops in the source. -/

theorem Pending.length_erase_lt_of_find {m : Pending} {k : Nat × Nat} {c : Cell}
    (h : Pending.find m k = some c) : (Pending.erase m k).length < m.length := by
  unfold Pending.find at h
  unfold Pending.erase
  obtain ⟨e, he, hek⟩ : ∃ e, List.find? (fun e => e.1 = k) m = some e ∧ e.2 = c := by
    cases hf : List.find? (fun e => e.1 = k) m with
    | none => simp [hf] at h
    | some e => exact ⟨e, rfl, by simpa [hf] using h⟩
  have hmem := List.mem_of_find?_eq_some he
  have hp := List.find?_some he
  have := List.length_eraseP_add_one (p := fun e => e.1 = k) hmem hp
  omega

theorem drainGo_fuel_congr (fuel fuel2 : Nat) (m : Pending) (pi pj : Nat)
    (h : m.length < fuel) (h2 : m.length < fuel2) :
    drainGo fuel m pi pj = drainGo fuel2 m pi pj := by
  induction fuel generalizing fuel2 m pj with
  | zero => omega
  | succ fuel ih =>
    cases fuel2 with
    | zero => omega
    | succ fuel2 =>
      unfold drainGo
      cases hf : Pending.find m (pi, pj) with
      | none => simp only [hf]
      | some c =>
        have hlt := Pending.length_erase_lt_of_find hf
        simp only [hf]
        rw [ih fuel2 (Pending.erase m (pi, pj)) (pj + 1) (by omega) (by omega)]

/-- The per-cell drain loop satisfies the recurrence of the `while` loop in
the source: the structural fuel never runs out. -/
theorem drain_unfold (m : Pending) (pi pj : Nat) :
    drain m pi pj =
      match Pending.find m (pi, pj) with
      | none => ([], pj, m)
      | some c =>
        let r := drain (Pending.erase m (pi, pj)) pi (pj + 1)
        (c :: r.1, r.2) := by
  conv_lhs => unfold drain drainGo
  cases hf : Pending.find m (pi, pj) with
  | none => simp only [hf]
  | some c =>
    have hlt := Pending.length_erase_lt_of_find hf
    simp only [hf]
    unfold drain
    rw [drainGo_fuel_congr m.length ((Pending.erase m (pi, pj)).length + 1)
      (Pending.erase m (pi, pj)) pi (pj + 1) (by omega) (by omega)]

theorem drainEndGo_fuel_congr (fuel fuel2 : Nat) (m : Pending) (pj max_ncols : Nat)
    (h : m.length < fuel) (h2 : m.length < fuel2) :
    drainEndGo fuel m pj max_ncols = drainEndGo fuel2 m pj max_ncols := by
  induction fuel generalizing fuel2 m pj with
  | zero => omega
  | succ fuel ih =>
    cases fuel2 with
    | zero => omega
    | succ fuel2 =>
      unfold drainEndGo
      cases hf : Pending.find m (pj, pj) with
      | none => simp only [hf]
      | some c =>
        have hlt := Pending.length_erase_lt_of_find hf
        simp only [hf]
        by_cases hc : pj < max_ncols
        · simp only [if_pos hc]
          rw [ih fuel2 (Pending.erase m (pj, pj)) (pj + 1) (by omega) (by omega)]
        · simp only [if_neg hc]

/-- The end-of-row drain loop satisfies the recurrence of the `while` loop in
the source. -/
theorem drainEnd_unfold (m : Pending) (pj max_ncols : Nat) :
    drainEnd m pj max_ncols =
      match Pending.find m (pj, pj) with
      | some c =>
        if pj < max_ncols then
          let r := drainEnd (Pending.erase m (pj, pj)) (pj + 1) max_ncols
          (c :: r.1, r.2)
        else ([], pj, m)
      | none => ([], pj, m) := by
  conv_lhs => unfold drainEnd drainEndGo
  cases hf : Pending.find m (pj, pj) with
  | none => simp only [hf]
  | some c =>
    have hlt := Pending.length_erase_lt_of_find hf
    simp only [hf]
    by_cases hc : pj < max_ncols
    · simp only [if_pos hc]
      unfold drainEnd
      rw [drainEndGo_fuel_congr m.length ((Pending.erase m (pj, pj)).length + 1)
        (Pending.erase m (pj, pj)) (pj + 1) max_ncols (by omega) (by omega)]
    · simp only [if_neg hc]

theorem padRowCellsGo_fuel_congr (newcell : Cell) (fuel fuel2 max_ncols : Nat)
    (cells : List Cell) (h : max_ncols - cells.length ≤ fuel)
    (h2 : max_ncols - cells.length ≤ fuel2) :
    padRowCellsGo newcell fuel max_ncols cells = padRowCellsGo newcell fuel2 max_ncols cells := by
  induction fuel generalizing fuel2 cells with
  | zero =>
    cases fuel2 with
    | zero => rfl
    | succ fuel2 =>
      unfold padRowCellsGo
      rw [if_neg (by omega)]
  | succ fuel ih =>
    cases fuel2 with
    | zero =>
      unfold padRowCellsGo
      rw [if_neg (by omega)]
    | succ fuel2 =>
      unfold padRowCellsGo
      by_cases hc : cells.length < max_ncols
      · simp only [if_pos hc]
        exact ih fuel2 (cells ++ [newcell]) (by simp; omega) (by simp; omega)
      · simp only [if_neg hc]

/-- The push loop of `Table::pad` satisfies the recurrence of the `while` loop
in the source. -/
theorem padRowCells_unfold (max_ncols : Nat) (newcell : Cell) (cells : List Cell) :
    padRowCells max_ncols newcell cells =
      if cells.length < max_ncols then padRowCells max_ncols newcell (cells ++ [newcell])
      else cells := by
  by_cases hc : cells.length < max_ncols
  · rw [if_pos hc]
    unfold padRowCells
    have hfe : max_ncols - cells.length = (max_ncols - cells.length - 1) + 1 := by omega
    rw [hfe]
    simp only [padRowCellsGo, if_pos hc]
    exact padRowCellsGo_fuel_congr newcell (max_ncols - cells.length - 1)
      (max_ncols - (cells ++ [newcell]).length) max_ncols (cells ++ [newcell])
      (by simp; omega) (by omega)
  · rw [if_neg hc]
    unfold padRowCells
    have hfe : max_ncols - cells.length = 0 := by omega
    rw [hfe]
    rfl

/-! ## Length of the `cols` vector -/

theorem length_foldl_preserve {β : Type} (f : List Nat → β → List Nat)
    (hf : ∀ cs b, (f cs b).length = cs.length) (l : List β) (cols : List Nat) :
    (l.foldl f cols).length = cols.length := by
  induction l generalizing cols with
  | nil => rfl
  | cons b l ih => rw [List.foldl_cons, ih, hf]

theorem length_addRowspanDebt (i : Nat) (cols : List Nat) (cell : Cell) :
    (addRowspanDebt i cols cell).length = cols.length := by
  unfold addRowspanDebt
  apply length_foldl_preserve
  intro cs j
  by_cases h : i + j < cs.length
  · rw [if_pos h, List.length_set]
  · rw [if_neg h]

theorem length_computeCols (rows : List Row) : (computeCols rows).length = rows.length := by
  unfold computeCols
  rw [length_foldl_preserve]
  · exact List.length_replicate _ _
  · intro cs ir
    unfold computeColsStep
    rw [length_foldl_preserve _ (length_addRowspanDebt ir.1), List.length_set]

/-- C9: for every table with zero rows, `span` succeeds and returns a copy of
the input; and whenever the table has rows, the `cols` list whose maximum is
taken by `max_by_key(..).unwrap()` is non-empty, so that `unwrap` can never
panic. -/
theorem span_empty_rows_safe (t : Table) :
    (t.rows = [] → Table.span t = .ok t) ∧
    (t.rows ≠ [] → computeCols t.rows ≠ []) := by
  constructor
  · intro h
    unfold Table.span
    rw [if_pos (by rw [h]; rfl)]
  · intro h hc
    have hl := length_computeCols t.rows
    rw [hc] at hl
    exact h (List.eq_nil_of_length_eq_zero hl.symm)

theorem span_empty_rows_safe_witness :
    Table.span (exTable []) = .ok (exTable []) ∧ computeCols exDrainTable.rows ≠ [] :=
  ⟨(span_empty_rows_safe (exTable [])).1 rfl,
   (span_empty_rows_safe exDrainTable).2 (by decide)⟩

/-- C1: the end-of-row drain of `Table::span` does not drain the pending
cells owed to the current row.  On `exDrainTable` the column count is 3, cell
`c` (rowspan 2, placed at row 0 column 2) is owed to row 1 at column 2, yet
the spanned table's second row has only 2 cells: after row 1's own cells the
cursor is `pj = 2` and the loop at line 114 looks up the key `(pj, pj) =
(2, 2)` instead of `(pi, pj) = (1, 2)` (the key the in-row drain at line 82
uses), so the owed cell is never appended.  The last two conjuncts exhibit
the divergence directly on the pending map in that state. -/
theorem drainEnd_uses_wrong_key :
    computeCols exDrainTable.rows = [3, 3] ∧
    (Table.span exDrainTable).map (fun t => t.rows.map fun r => r.cells.length) =
      .ok [3, 2] ∧
    drainEnd [((1, 2), exCell false 1 1 "c")] 2 3 =
      ([], 2, [((1, 2), exCell false 1 1 "c")]) ∧
    drain [((1, 2), exCell false 1 1 "c")] 1 2 = ([exCell false 1 1 "c"], 3, []) :=
  ⟨rfl, rfl, rfl, rfl⟩

/-- C4: whenever the colspan-expansion loop is about to place a copy at a
coordinate `(pi, pj)` already occupied by a pending cell projected there by an
earlier row's rowspan, `span` fails with `OverlapSpanError`; in particular on
`exOverlap` (a rowspan-2 cell directly above a later row's colspan placement
at the same coordinate) `span` returns `OverlapSpanError`. -/
theorem span_overlap_on_collision :
    (∀ (max_ncols : Nat) (is_last : Bool) (pi : Nat) (cell : Cell) (rowspan n : Nat)
       (new_row : List Cell) (pj : Nat) (m : Pending) (c : Cell),
       Pending.find m (pi, pj) = some c →
       placeLoop max_ncols is_last pi cell rowspan (n + 1) (new_row, pj, m) =
         .error (.overlapSpanError "")) ∧
    Table.span exOverlap = .error (.overlapSpanError "") := by
  constructor
  · intro maxN isLast pi cell rowspan n new_row pj m c hf
    unfold placeLoop
    simp only [hf]
  · rfl

theorem span_overlap_on_collision_witness :
    placeLoop 2 false 1 (exCell false 1 1 "D") 1 1
      ([], 1, [((1, 1), exCell false 1 1 "B")]) = .error (.overlapSpanError "") :=
  span_overlap_on_collision.1 2 false 1 (exCell false 1 1 "D") 1 0 [] 1
    [((1, 1), exCell false 1 1 "B")] (exCell false 1 1 "B") rfl

/-- C3: when placing a copy pushes the cursor `pj` to the column count or
beyond, the colspan loop fails with `InvalidCellSpanError` if the cell is not
the last of its row, and exits successfully (the row clamped at the column
count, the remaining copies not placed) if it is; concretely, `span` on
`exOverflowMid` (overflow at a non-last cell) is `InvalidCellSpanError` while
on `exOverflowLast` (same overflow at the last cell) it succeeds with both
rows clamped to the column count 2. -/
theorem span_invalid_on_overflow :
    (∀ (max_ncols : Nat) (is_last : Bool) (pi : Nat) (cell : Cell) (rowspan n : Nat)
       (new_row : List Cell) (pj : Nat) (m : Pending),
       Pending.find m (pi, pj) = none →
       max_ncols ≤ pj + 1 →
       (is_last = false →
          placeLoop max_ncols is_last pi cell rowspan (n + 1) (new_row, pj, m) =
            .error (.invalidCellSpanError "")) ∧
       (is_last = true →
          placeLoop max_ncols is_last pi cell rowspan (n + 1) (new_row, pj, m) =
            .ok (new_row ++ [cell], pj + 1, insertPending m pi pj rowspan cell))) ∧
    Table.span exOverflowMid = .error (.invalidCellSpanError "") ∧
    (Table.span exOverflowLast).map (fun t => t.rows.map fun r => r.cells.length) =
      .ok [2, 2] := by
  refine ⟨?_, rfl, rfl⟩
  intro maxN isLast pi cell rowspan n new_row pj m hf hover
  unfold placeLoop
  simp only [hf]
  rw [if_pos hover]
  constructor
  · intro h
    rw [h]
    rfl
  · intro h
    rw [h]
    rfl

theorem span_invalid_on_overflow_witness :
    (placeLoop 2 false 0 (exCell false 1 1 "A") 1 2 ([], 1, []) =
      .error (.invalidCellSpanError "")) ∧
    (placeLoop 2 true 0 (exCell false 1 1 "B") 1 2 ([exCell false 1 1 "A"], 1, []) =
      .ok ([exCell false 1 1 "A", exCell false 1 1 "B"], 2, [])) :=
  ⟨(span_invalid_on_overflow.1 2 false 0 (exCell false 1 1 "A") 1 1 [] 1 [] rfl
      (by decide)).1 rfl,
   (span_invalid_on_overflow.1 2 true 0 (exCell false 1 1 "B") 1 1 [exCell false 1 1 "A"]
      1 [] rfl (by decide)).2 rfl⟩

/-! ## The column count bounds every row's own cell count -/

theorem getD_set_zero (l : List Nat) (i k v : Nat) :
    (l.set i v).getD k 0 = if i = k ∧ i < l.length then v else l.getD k 0 := by
  rw [List.getD_eq_getElem?_getD, List.getD_eq_getElem?_getD, List.getElem?_set]
  by_cases h1 : i = k
  · subst h1
    by_cases h2 : i < l.length
    · simp [h2]
    · simp [h2, List.getElem?_eq_none (show l.length ≤ i by omega)]
  · simp [h1]

theorem getD_le_addRowspanDebt (i : Nat) (cols : List Nat) (cell : Cell) (k : Nat) :
    cols.getD k 0 ≤ (addRowspanDebt i cols cell).getD k 0 := by
  unfold addRowspanDebt
  generalize List.range' 1 (cell.rowspan - 1) = l
  induction l generalizing cols with
  | nil => exact Nat.le_refl _
  | cons j l ih =>
    rw [List.foldl_cons]
    refine Nat.le_trans ?_ (ih _)
    by_cases h : i + j < cols.length
    · rw [if_pos h, getD_set_zero]
      by_cases h2 : i + j = k ∧ i + j < cols.length
      · rw [if_pos h2, ← h2.1]
        exact Nat.le_succ _
      · rw [if_neg h2]
    · rw [if_neg h]

theorem getD_le_foldl_addRowspanDebt (i : Nat) (l : List Cell) (cs : List Nat) (k : Nat) :
    cs.getD k 0 ≤ (l.foldl (addRowspanDebt i) cs).getD k 0 := by
  induction l generalizing cs with
  | nil => exact Nat.le_refl _
  | cons c l ih =>
    rw [List.foldl_cons]
    exact Nat.le_trans (getD_le_addRowspanDebt i cs c k) (ih _)

theorem getD_le_computeColsStep (cols : List Nat) (ir : Nat × Row) (k : Nat) :
    cols.getD k 0 ≤ (computeColsStep cols ir).getD k 0 := by
  unfold computeColsStep
  refine Nat.le_trans ?_ (getD_le_foldl_addRowspanDebt ir.1 _ _ k)
  rw [getD_set_zero]
  by_cases h : ir.1 = k ∧ ir.1 < cols.length
  · rw [if_pos h, ← h.1]
    exact Nat.le_add_right _ _
  · rw [if_neg h]

theorem getD_le_foldl_computeColsStep (l : List (Nat × Row)) (cols : List Nat) (k : Nat) :
    cols.getD k 0 ≤ (l.foldl computeColsStep cols).getD k 0 := by
  induction l generalizing cols with
  | nil => exact Nat.le_refl _
  | cons ir l ih =>
    rw [List.foldl_cons]
    exact Nat.le_trans (getD_le_computeColsStep cols ir k) (ih _)

theorem length_computeColsStep (cols : List Nat) (ir : Nat × Row) :
    (computeColsStep cols ir).length = cols.length := by
  unfold computeColsStep
  rw [length_foldl_preserve _ (length_addRowspanDebt ir.1), List.length_set]

theorem computeCols_ge_aux (rows : List Row) :
    ∀ (k : Nat) (cols : List Nat) (i : Nat) (hi : i < rows.length),
      k + i < cols.length →
      (rows.get ⟨i, hi⟩).cells.length ≤
        ((List.enumFrom k rows).foldl computeColsStep cols).getD (k + i) 0 := by
  induction rows with
  | nil => intro k cols i hi; exact absurd hi (Nat.not_lt_zero i)
  | cons r rs ih =>
    intro k cols i hi hk
    rw [List.enumFrom_cons, List.foldl_cons]
    cases i with
    | zero =>
      refine Nat.le_trans ?_ (getD_le_foldl_computeColsStep _ _ _)
      show r.cells.length ≤ (computeColsStep cols (k, r)).getD (k + 0) 0
      unfold computeColsStep
      refine Nat.le_trans ?_ (getD_le_foldl_addRowspanDebt k _ _ _)
      rw [getD_set_zero, if_pos ⟨by omega, by omega⟩]
      exact Nat.le_add_left _ _
    | succ i =>
      have hi2 : i < rs.length := by
        simp only [List.length_cons] at hi
        omega
      have hk2 : (k + 1) + i < (computeColsStep cols (k, r)).length := by
        rw [length_computeColsStep]
        omega
      have hrec := ih (k + 1) (computeColsStep cols (k, r)) i hi2 hk2
      rw [show k + (i + 1) = (k + 1) + i from by omega]
      exact hrec

/-- Every row's own cell count is bounded by its `cols` entry. -/
theorem cells_le_computeCols (rows : List Row) (i : Nat) (hi : i < rows.length) :
    (rows.get ⟨i, hi⟩).cells.length ≤ (computeCols rows).getD i 0 := by
  unfold computeCols
  rw [List.enum_eq_enumFrom]
  have := computeCols_ge_aux rows 0 (List.replicate rows.length 0) i hi
    (by rw [List.length_replicate]; omega)
  simpa using this

theorem le_foldl_max_init (l : List Nat) (a : Nat) : a ≤ l.foldl max a := by
  induction l generalizing a with
  | nil => exact Nat.le_refl _
  | cons x l ih =>
    rw [List.foldl_cons]
    exact Nat.le_trans (Nat.le_max_left a x) (ih _)

theorem le_foldl_max_of_mem {x : Nat} {l : List Nat} (hx : x ∈ l) (a : Nat) :
    x ≤ l.foldl max a := by
  induction l generalizing a with
  | nil => exact absurd hx (List.not_mem_nil x)
  | cons y l ih =>
    rw [List.foldl_cons]
    rcases List.mem_cons.mp hx with h | h
    · subst h
      exact Nat.le_trans (Nat.le_max_right a x) (le_foldl_max_init _ _)
    · exact ih h _

/-- Every `cols` entry is bounded by `max_ncols`. -/
theorem getD_le_maxNcols (cols : List Nat) (k : Nat) (hk : k < cols.length) :
    cols.getD k 0 ≤ maxNcols cols := by
  unfold maxNcols
  refine le_foldl_max_of_mem ?_ 0
  rw [List.getD_eq_getElem cols 0 hk]
  exact List.get_mem _ _ _

/-! ## C6: `span` is the identity on already-spanned tables -/

theorem cell_clone_spanned (c : Cell) (h1 : c.colspan = 1) (h2 : c.rowspan = 1) :
    ({ c with colspan := 1, rowspan := 1 } : Cell) = c := by
  cases c
  simp only at h1 h2
  simp [h1, h2]

theorem placeLoop_one_spanned (maxN : Nat) (is_last : Bool) (pi : Nat) (cell : Cell)
    (acc : List Cell) (pj : Nat) (h : pj + 1 < maxN ∨ is_last = true) :
    placeLoop maxN is_last pi cell 1 1 (acc, pj, []) = .ok (acc ++ [cell], pj + 1, []) := by
  unfold placeLoop
  show (if maxN ≤ pj + 1 then
          if is_last then .ok (acc ++ [cell], pj + 1, insertPending [] pi pj 1 cell)
          else .error (.invalidCellSpanError "")
        else placeLoop maxN is_last pi cell 1 0
          (acc ++ [cell], pj + 1, insertPending [] pi pj 1 cell)) =
      .ok (acc ++ [cell], pj + 1, [])
  rcases h with h | h
  · rw [if_neg (by omega)]
    rfl
  · by_cases h2 : maxN ≤ pj + 1
    · rw [if_pos h2, h]
      rfl
    · rw [if_neg h2]
      rfl

theorem processCells_spanned (maxN pi ncells : Nat) (hn : ncells ≤ maxN) :
    ∀ (cs done : List Cell), done.length + cs.length = ncells →
    (∀ c ∈ cs, c.colspan = 1 ∧ c.rowspan = 1) →
    processCells maxN pi ncells done.length cs (done, done.length, []) =
      .ok (done ++ cs, ncells, []) := by
  intro cs
  induction cs with
  | nil =>
    intro done hlen hsp
    unfold processCells
    simp only [List.append_nil]
    rw [show done.length = ncells from by simpa using hlen]
  | cons c cs ih =>
    intro done hlen hsp
    have hc := hsp c (List.mem_cons_self c cs)
    unfold processCells processCell
    simp only
    rw [cell_clone_spanned c hc.1 hc.2]
    show (do
        let st' ← placeLoop maxN (decide (done.length = ncells - 1)) pi c c.rowspan c.colspan
          (done ++ (drain [] pi done.length).1, (drain [] pi done.length).2.1,
           (drain [] pi done.length).2.2)
        processCells maxN pi ncells (done.length + 1) cs st') = _
    have hdrain : drain [] pi done.length = ([], done.length, []) := rfl
    rw [hdrain, hc.1, hc.2]
    simp only [List.append_nil]
    have hplace := placeLoop_one_spanned maxN (decide (done.length = ncells - 1)) pi c done
      done.length ?_
    · rw [hplace]
      show processCells maxN pi ncells (done.length + 1) cs
          (done ++ [c], done.length + 1, []) = .ok (done ++ c :: cs, ncells, [])
      have := ih (done ++ [c]) (by simp at hlen ⊢; omega)
        (fun x hx => hsp x (List.mem_cons_of_mem c hx))
      rw [show (done ++ [c]).length = done.length + 1 from by simp] at this
      rw [this]
      simp
    · by_cases hlast : done.length = ncells - 1
      · right
        simp [hlast]
      · left
        simp only [List.length_cons] at hlen
        omega

theorem processRow_spanned (maxN pi : Nat) (row : Row) (hn : row.cells.length ≤ maxN)
    (hsp : ∀ c ∈ row.cells, c.colspan = 1 ∧ c.rowspan = 1) :
    processRow maxN pi row [] = .ok (row, []) := by
  cases row with
  | mk cells attrs =>
    unfold processRow
    have hpc := processCells_spanned maxN pi cells.length hn cells [] (by simp) hsp
    rw [show ([] : List Cell).length = 0 from rfl] at hpc
    rw [hpc]
    show Except.ok (({ cells := cells ++ [], attrs := attrs } : Row), ([] : Pending)) =
      Except.ok ({ cells := cells, attrs := attrs }, ([] : Pending))
    simp

theorem spanRows_spanned (maxN : Nat) :
    ∀ (rows : List Row) (pi : Nat),
    (∀ r ∈ rows, r.cells.length ≤ maxN) →
    (∀ r ∈ rows, ∀ c ∈ r.cells, c.colspan = 1 ∧ c.rowspan = 1) →
    spanRows maxN pi [] rows = .ok rows := by
  intro rows
  induction rows with
  | nil => intro pi _ _; rfl
  | cons r rs ih =>
    intro pi hle hsp
    unfold spanRows
    rw [processRow_spanned maxN pi r (hle r (List.mem_cons_self r rs))
      (hsp r (List.mem_cons_self r rs))]
    show (do
        let rws ← spanRows maxN (pi + 1) [] rs
        Except.ok (r :: rws)) = _
    rw [ih (pi + 1) (fun x hx => hle x (List.mem_cons_of_mem r hx))
      (fun x hx => hsp x (List.mem_cons_of_mem r hx))]
    rfl

/-- C6: on a table in which every cell already has `colspan = 1` and
`rowspan = 1`, `span` succeeds and returns the table unchanged. -/
theorem span_id_on_spanned (t : Table) (h : allCellsSpanned t = true) :
    Table.span t = .ok t := by
  unfold Table.span
  by_cases hrows : t.rows.length = 0
  · rw [if_pos hrows]
  · rw [if_neg hrows]
    have hsp : ∀ r ∈ t.rows, ∀ c ∈ r.cells, c.colspan = 1 ∧ c.rowspan = 1 := by
      intro r hr c hc
      unfold allCellsSpanned at h
      rw [List.all_eq_true] at h
      have := h r hr
      rw [List.all_eq_true] at this
      have := this c hc
      simp at this
      exact this
    have hle : ∀ r ∈ t.rows, r.cells.length ≤ maxNcols (computeCols t.rows) := by
      intro r hr
      rcases List.mem_iff_get.mp hr with ⟨⟨i, hi⟩, hget⟩
      have h1 := cells_le_computeCols t.rows i hi
      rw [hget] at h1
      refine Nat.le_trans h1 (getD_le_maxNcols _ i ?_)
      rw [length_computeCols]
      exact hi
    have hs := spanRows_spanned (maxNcols (computeCols t.rows)) t.rows 0 hle hsp
    simp only [hs]

theorem span_id_on_spanned_witness :
    allCellsSpanned exRagged = true ∧ Table.span exRagged = .ok exRagged :=
  ⟨rfl, span_id_on_spanned exRagged rfl⟩

/-! ## C2 / C5: every cell of a spanned table has spans 1, and padding makes
rows uniform -/

theorem Pending.find_eq_some_mem {m : Pending} {k : Nat × Nat} {c : Cell}
    (h : Pending.find m k = some c) : ∃ e, e ∈ m ∧ e.2 = c := by
  unfold Pending.find at h
  cases hf : List.find? (fun e => e.1 = k) m with
  | none => rw [hf] at h; cases h
  | some e =>
    rw [hf] at h
    exact ⟨e, List.mem_of_find?_eq_some hf, by simpa using h⟩

theorem Pending.mem_erase {m : Pending} {k : Nat × Nat} {e : (Nat × Nat) × Cell}
    (h : e ∈ Pending.erase m k) : e ∈ m :=
  List.mem_of_mem_eraseP h

theorem Pending.mem_insert {m : Pending} {k : Nat × Nat} {v : Cell}
    {e : (Nat × Nat) × Cell} (h : e ∈ Pending.insert m k v) : e = (k, v) ∨ e ∈ m := by
  unfold Pending.insert at h
  rcases List.mem_cons.mp h with h | h
  · exact Or.inl h
  · exact Or.inr (Pending.mem_erase h)

theorem drainGo_spanned (fuel : Nat) : ∀ (m : Pending) (pi pj : Nat),
    (∀ e ∈ m, e.2.colspan = 1 ∧ e.2.rowspan = 1) →
    (∀ c ∈ (drainGo fuel m pi pj).1, c.colspan = 1 ∧ c.rowspan = 1) ∧
    (∀ e ∈ (drainGo fuel m pi pj).2.2, e.2.colspan = 1 ∧ e.2.rowspan = 1) := by
  induction fuel with
  | zero =>
    intro m pi pj hm
    exact ⟨fun c hc => absurd hc (List.not_mem_nil c), hm⟩
  | succ fuel ih =>
    intro m pi pj hm
    unfold drainGo
    cases hf : Pending.find m (pi, pj) with
    | none =>
      simp only [hf]
      exact ⟨fun c hc => absurd hc (List.not_mem_nil c), hm⟩
    | some c =>
      simp only [hf]
      have hm2 : ∀ e ∈ Pending.erase m (pi, pj), e.2.colspan = 1 ∧ e.2.rowspan = 1 :=
        fun e he => hm e (Pending.mem_erase he)
      have hrec := ih (Pending.erase m (pi, pj)) pi (pj + 1) hm2
      constructor
      · intro x hx
        rcases List.mem_cons.mp hx with h | h
        · subst h
          rcases Pending.find_eq_some_mem hf with ⟨e, he, hev⟩
          rw [← hev]
          exact hm e he
        · exact hrec.1 x h
      · exact hrec.2

theorem drain_spanned (m : Pending) (pi pj : Nat)
    (hm : ∀ e ∈ m, e.2.colspan = 1 ∧ e.2.rowspan = 1) :
    (∀ c ∈ (drain m pi pj).1, c.colspan = 1 ∧ c.rowspan = 1) ∧
    (∀ e ∈ (drain m pi pj).2.2, e.2.colspan = 1 ∧ e.2.rowspan = 1) :=
  drainGo_spanned (m.length + 1) m pi pj hm

theorem drainEndGo_spanned (fuel : Nat) : ∀ (m : Pending) (pj maxN : Nat),
    (∀ e ∈ m, e.2.colspan = 1 ∧ e.2.rowspan = 1) →
    (∀ c ∈ (drainEndGo fuel m pj maxN).1, c.colspan = 1 ∧ c.rowspan = 1) ∧
    (∀ e ∈ (drainEndGo fuel m pj maxN).2.2, e.2.colspan = 1 ∧ e.2.rowspan = 1) := by
  induction fuel with
  | zero =>
    intro m pj maxN hm
    exact ⟨fun c hc => absurd hc (List.not_mem_nil c), hm⟩
  | succ fuel ih =>
    intro m pj maxN hm
    unfold drainEndGo
    cases hf : Pending.find m (pj, pj) with
    | none =>
      simp only [hf]
      exact ⟨fun c hc => absurd hc (List.not_mem_nil c), hm⟩
    | some c =>
      simp only [hf]
      by_cases hc : pj < maxN
      · simp only [if_pos hc]
        have hm2 : ∀ e ∈ Pending.erase m (pj, pj), e.2.colspan = 1 ∧ e.2.rowspan = 1 :=
          fun e he => hm e (Pending.mem_erase he)
        have hrec := ih (Pending.erase m (pj, pj)) (pj + 1) maxN hm2
        constructor
        · intro x hx
          rcases List.mem_cons.mp hx with h | h
          · subst h
            rcases Pending.find_eq_some_mem hf with ⟨e, he, hev⟩
            rw [← hev]
            exact hm e he
          · exact hrec.1 x h
        · exact hrec.2
      · simp only [if_neg hc]
        exact ⟨fun c hc => absurd hc (List.not_mem_nil c), hm⟩

theorem drainEnd_spanned (m : Pending) (pj maxN : Nat)
    (hm : ∀ e ∈ m, e.2.colspan = 1 ∧ e.2.rowspan = 1) :
    (∀ c ∈ (drainEnd m pj maxN).1, c.colspan = 1 ∧ c.rowspan = 1) ∧
    (∀ e ∈ (drainEnd m pj maxN).2.2, e.2.colspan = 1 ∧ e.2.rowspan = 1) :=
  drainEndGo_spanned (m.length + 1) m pj maxN hm

theorem insertPending_spanned (m : Pending) (pi pj rowspan : Nat) (cell : Cell)
    (hm : ∀ e ∈ m, e.2.colspan = 1 ∧ e.2.rowspan = 1)
    (hc : cell.colspan = 1 ∧ cell.rowspan = 1) :
    ∀ e ∈ insertPending m pi pj rowspan cell, e.2.colspan = 1 ∧ e.2.rowspan = 1 := by
  unfold insertPending
  generalize List.range' 1 (rowspan - 1) = l
  induction l generalizing m with
  | nil => exact hm
  | cons j l ih =>
    rw [List.foldl_cons]
    refine ih _ ?_
    intro e he
    rcases Pending.mem_insert he with h | h
    · rw [h]
      exact hc
    · exact hm e h

theorem placeLoop_spanned (maxN : Nat) (is_last : Bool) (pi : Nat) (cell : Cell)
    (rowspan : Nat) (hc : cell.colspan = 1 ∧ cell.rowspan = 1) :
    ∀ (n : Nat) (acc : List Cell) (pj : Nat) (m : Pending)
      (hacc : ∀ c ∈ acc, c.colspan = 1 ∧ c.rowspan = 1)
      (hm : ∀ e ∈ m, e.2.colspan = 1 ∧ e.2.rowspan = 1)
      (st' : List Cell × Nat × Pending),
      placeLoop maxN is_last pi cell rowspan n (acc, pj, m) = .ok st' →
      (∀ c ∈ st'.1, c.colspan = 1 ∧ c.rowspan = 1) ∧
      (∀ e ∈ st'.2.2, e.2.colspan = 1 ∧ e.2.rowspan = 1) := by
  intro n
  induction n with
  | zero =>
    intro acc pj m hacc hm st' hok
    unfold placeLoop at hok
    cases hok
    exact ⟨hacc, hm⟩
  | succ n ih =>
    intro acc pj m hacc hm st' hok
    unfold placeLoop at hok
    cases hf : Pending.find m (pi, pj) with
    | some c => rw [hf] at hok; cases hok
    | none =>
      rw [hf] at hok
      have hacc2 : ∀ c ∈ acc ++ [cell], c.colspan = 1 ∧ c.rowspan = 1 := by
        intro c hcm
        rcases List.mem_append.mp hcm with h | h
        · exact hacc c h
        · rw [List.mem_singleton.mp h]
          exact hc
      have hm2 := insertPending_spanned m pi pj rowspan cell hm hc
      by_cases hover : maxN ≤ pj + 1
      · rw [if_pos hover] at hok
        cases hl : is_last with
        | true =>
          rw [hl] at hok
          simp only [if_pos] at hok
          cases hok
          exact ⟨hacc2, hm2⟩
        | false =>
          rw [hl] at hok
          simp at hok
      · rw [if_neg hover] at hok
        exact ih (acc ++ [cell]) (pj + 1) (insertPending m pi pj rowspan cell) hacc2 hm2 st' hok

theorem processCell_spanned (maxN pi : Nat) (is_last : Bool) (ocell : Cell)
    (st : List Cell × Nat × Pending)
    (hacc : ∀ c ∈ st.1, c.colspan = 1 ∧ c.rowspan = 1)
    (hm : ∀ e ∈ st.2.2, e.2.colspan = 1 ∧ e.2.rowspan = 1)
    (st' : List Cell × Nat × Pending)
    (hok : processCell maxN pi is_last ocell st = .ok st') :
    (∀ c ∈ st'.1, c.colspan = 1 ∧ c.rowspan = 1) ∧
    (∀ e ∈ st'.2.2, e.2.colspan = 1 ∧ e.2.rowspan = 1) := by
  unfold processCell at hok
  have hd := drain_spanned st.2.2 pi st.2.1 hm
  refine placeLoop_spanned maxN is_last pi _ ocell.rowspan ⟨rfl, rfl⟩ ocell.colspan
    (st.1 ++ (drain st.2.2 pi st.2.1).1) (drain st.2.2 pi st.2.1).2.1
    (drain st.2.2 pi st.2.1).2.2 ?_ hd.2 st' hok
  intro c hcm
  rcases List.mem_append.mp hcm with h | h
  · exact hacc c h
  · exact hd.1 c h

theorem processCells_all_spanned (maxN pi ncells : Nat) :
    ∀ (cs : List Cell) (cell_index : Nat) (st : List Cell × Nat × Pending)
      (hacc : ∀ c ∈ st.1, c.colspan = 1 ∧ c.rowspan = 1)
      (hm : ∀ e ∈ st.2.2, e.2.colspan = 1 ∧ e.2.rowspan = 1)
      (st' : List Cell × Nat × Pending),
      processCells maxN pi ncells cell_index cs st = .ok st' →
      (∀ c ∈ st'.1, c.colspan = 1 ∧ c.rowspan = 1) ∧
      (∀ e ∈ st'.2.2, e.2.colspan = 1 ∧ e.2.rowspan = 1) := by
  intro cs
  induction cs with
  | nil =>
    intro ci st hacc hm st' hok
    unfold processCells at hok
    cases hok
    exact ⟨hacc, hm⟩
  | cons c cs ih =>
    intro ci st hacc hm st' hok
    unfold processCells at hok
    cases hpc : processCell maxN pi (ci = ncells - 1) c st with
    | error e => rw [hpc] at hok; cases hok
    | ok st1 =>
      rw [hpc] at hok
      have h1 := processCell_spanned maxN pi (ci = ncells - 1) c st hacc hm st1 hpc
      exact ih (ci + 1) st1 h1.1 h1.2 st' hok

theorem processRow_spanned_out (maxN pi : Nat) (row : Row) (m : Pending)
    (hm : ∀ e ∈ m, e.2.colspan = 1 ∧ e.2.rowspan = 1)
    (r' : Row) (m' : Pending) (hok : processRow maxN pi row m = .ok (r', m')) :
    (∀ c ∈ r'.cells, c.colspan = 1 ∧ c.rowspan = 1) ∧
    (∀ e ∈ m', e.2.colspan = 1 ∧ e.2.rowspan = 1) := by
  unfold processRow at hok
  cases hpc : processCells maxN pi row.cells.length 0 row.cells ([], 0, m) with
  | error e => rw [hpc] at hok; cases hok
  | ok st =>
    rw [hpc] at hok
    have h1 := processCells_all_spanned maxN pi row.cells.length row.cells 0 ([], 0, m)
      (fun c hc => absurd hc (List.not_mem_nil c)) hm st hpc
    have hde := drainEnd_spanned st.2.2 st.2.1 maxN h1.2
    simp only at hok
    cases hok
    constructor
    · intro c hcm
      rcases List.mem_append.mp hcm with h | h
      · exact h1.1 c h
      · exact hde.1 c h
    · exact hde.2

theorem spanRows_all_spanned (maxN : Nat) :
    ∀ (rows : List Row) (pi : Nat) (m : Pending)
      (hm : ∀ e ∈ m, e.2.colspan = 1 ∧ e.2.rowspan = 1)
      (data : List Row),
      spanRows maxN pi m rows = .ok data →
      ∀ r ∈ data, ∀ c ∈ r.cells, c.colspan = 1 ∧ c.rowspan = 1 := by
  intro rows
  induction rows with
  | nil =>
    intro pi m hm data hok
    unfold spanRows at hok
    cases hok
    intro r hr
    exact absurd hr (List.not_mem_nil r)
  | cons row rest ih =>
    intro pi m hm data hok
    unfold spanRows at hok
    cases hpr : processRow maxN pi row m with
    | error e => rw [hpr] at hok; cases hok
    | ok rm =>
      rw [hpr] at hok
      have hok2 : (do
          let rs ← spanRows maxN (pi + 1) rm.2 rest
          Except.ok (rm.1 :: rs)) = Except.ok data := hok
      cases hsr : spanRows maxN (pi + 1) rm.2 rest with
      | error e => rw [hsr] at hok2; cases hok2
      | ok rs =>
        rw [hsr] at hok2
        cases hok2
        have h1 := processRow_spanned_out maxN pi row m hm rm.1 rm.2 (by rw [← hpr])
        intro r hr
        rcases List.mem_cons.mp hr with h | h
        · rw [h]
          exact h1.1
        · exact ih (pi + 1) rm.2 h1.2 rs hsr r h

/-- Every cell of a successfully spanned table has `colspan = rowspan = 1`. -/
theorem span_all_spanned (t t' : Table) (h : Table.span t = .ok t') :
    allCellsSpanned t' = true := by
  unfold Table.span at h
  by_cases hrows : t.rows.length = 0
  · rw [if_pos hrows] at h
    cases h
    unfold allCellsSpanned
    rw [List.eq_nil_of_length_eq_zero hrows]
    rfl
  · rw [if_neg hrows] at h
    simp only at h
    cases hsr : spanRows (maxNcols (computeCols t.rows)) 0 [] t.rows with
    | error e => rw [hsr] at h; cases h
    | ok data =>
      rw [hsr] at h
      cases h
      have := spanRows_all_spanned (maxNcols (computeCols t.rows)) t.rows 0 []
        (fun e he => absurd he (List.not_mem_nil e)) data hsr
      unfold allCellsSpanned
      rw [List.all_eq_true]
      intro r hr
      rw [List.all_eq_true]
      intro c hc
      have h2 := this r hr c hc
      simp [h2.1, h2.2]

theorem padRowCells_eq (maxN : Nat) (newcell : Cell) (cells : List Cell) :
    padRowCells maxN newcell cells =
      cells ++ List.replicate (maxN - cells.length) newcell := by
  suffices h : ∀ (d : Nat) (cells : List Cell), maxN - cells.length = d →
      padRowCells maxN newcell cells = cells ++ List.replicate d newcell by
    exact h _ cells rfl
  intro d
  induction d with
  | zero =>
    intro cells hd
    rw [padRowCells_unfold, if_neg (by omega)]
    simp
  | succ d ih =>
    intro cells hd
    rw [padRowCells_unfold, if_pos (by omega)]
    rw [ih (cells ++ [newcell]) (by simp; omega)]
    rw [List.append_assoc, List.replicate_succ]
    rfl

/-- `pad` returns `none` exactly on tables whose rows already share one cell
count. -/
theorem pad_none_iff (t : Table) : Table.pad t = none ↔ uniformRows t = true := by
  cases t with
  | mk id url caption attrs context rows =>
    cases rows with
    | nil => simp [Table.pad, uniformRows]
    | cons r rs =>
      unfold Table.pad uniformRows
      simp only
      by_cases hall : ((r :: rs).all fun row => row.cells.length = r.cells.length) = true
      · rw [if_pos hall]
        simp [hall]
      · rw [if_neg hall]
        simp [hall]

/-- The padded table constructed by `pad`, described cell-for-cell. -/
theorem pad_some_eq (t t' : Table) (h : Table.pad t = some t') :
    t'.id = t.id ∧ t'.url = t.url ∧ t'.caption = t.caption ∧ t'.attrs = t.attrs ∧
    t'.context = t.context ∧
    t'.rows = t.rows.map (fun r =>
      { r with cells :=
          r.cells ++ List.replicate (maxRowWidth t - r.cells.length) (padCellFor r) }) := by
  cases t with
  | mk id url caption attrs context rows =>
    cases rows with
    | nil => simp [Table.pad] at h
    | cons r rs =>
      unfold Table.pad at h
      simp only at h
      by_cases hall : ((r :: rs).all fun row => row.cells.length = r.cells.length) = true
      · rw [if_pos hall] at h
        cases h
      · rw [if_neg hall] at h
        simp only [Option.some_inj] at h
        subst h
        refine ⟨rfl, rfl, rfl, rfl, rfl, ?_⟩
        simp only
        refine List.map_congr_left ?_
        intro a ha
        rw [padRowCells_eq]
        rfl

/-- After `pad` (or keeping the table when `pad` returns none), all rows share
one cell count. -/
theorem uniformRows_padOrKeep (t : Table) : uniformRows (padOrKeep t) = true := by
  unfold padOrKeep
  cases hp : Table.pad t with
  | none =>
    rw [Option.getD_none]
    exact (pad_none_iff t).mp hp
  | some t' =>
    rw [Option.getD_some]
    have hs := pad_some_eq t t' hp
    have hrows := hs.2.2.2.2.2
    unfold uniformRows
    cases htr : t.rows with
    | nil =>
      rw [htr] at hrows
      rw [hrows]
      rfl
    | cons r rs =>
      rw [htr] at hrows
      rw [hrows]
      simp only [List.map_cons, List.all_cons, List.all_eq_true]
      have hmax : ∀ x ∈ t.rows, x.cells.length ≤ maxRowWidth t := by
        intro x hx
        exact le_foldl_max_of_mem (List.mem_map_of_mem (fun row => row.cells.length) hx) 0
      have hlen : ∀ x ∈ t.rows,
          (x.cells ++ List.replicate (maxRowWidth t - x.cells.length)
            (padCellFor x)).length = maxRowWidth t := by
        intro x hx
        rw [List.length_append, List.length_replicate]
        have := hmax x hx
        omega
      rw [Bool.and_eq_true]
      refine ⟨rfl, ?_⟩
      rw [List.all_eq_true]
      intro b hb
      rcases List.mem_map.mp hb with ⟨x, hx, hxb⟩
      subst hxb
      simp only [decide_eq_true_eq]
      show (x.cells ++ List.replicate (maxRowWidth t - x.cells.length) (padCellFor x)).length =
        (r.cells ++ List.replicate (maxRowWidth t - r.cells.length) (padCellFor r)).length
      rw [hlen x (by rw [htr]; exact List.mem_cons_of_mem r hx),
        hlen r (by rw [htr]; exact List.mem_cons_self r rs)]

/-- Padding preserves the all-spans-1 property: the synthetic cells have
`colspan = rowspan = 1` and the original cells are unchanged. -/
theorem padOrKeep_spanned (t : Table) (h : allCellsSpanned t = true) :
    allCellsSpanned (padOrKeep t) = true := by
  unfold padOrKeep
  cases hp : Table.pad t with
  | none =>
    rw [Option.getD_none]
    exact h
  | some t' =>
    rw [Option.getD_some]
    have hrows := (pad_some_eq t t' hp).2.2.2.2.2
    unfold allCellsSpanned at h ⊢
    rw [List.all_eq_true] at h ⊢
    intro r' hr'
    rw [hrows] at hr'
    rcases List.mem_map.mp hr' with ⟨x, hx, hxr⟩
    subst hxr
    rw [List.all_eq_true]
    intro c hc
    simp only at hc
    rcases List.mem_append.mp hc with hcm | hcm
    · have := h x hx
      rw [List.all_eq_true] at this
      exact this c hcm
    · rw [(List.mem_replicate.mp hcm).2]
      rfl

/-- C2: for every table on which `span` succeeds, applying `pad` to the
result (and keeping the spanned table when `pad` returns none) yields a table
in which every row has the same number of cells and every cell has
`colspan = 1` and `rowspan = 1`. -/
theorem span_then_pad_rectangular (t t' : Table) (h : Table.span t = .ok t') :
    allCellsSpanned (padOrKeep t') = true ∧ uniformRows (padOrKeep t') = true :=
  ⟨padOrKeep_spanned t' (span_all_spanned t t' h), uniformRows_padOrKeep t'⟩

theorem span_then_pad_rectangular_witness :
    allCellsSpanned (padOrKeep exRagged) = true ∧ uniformRows (padOrKeep exRagged) = true :=
  span_then_pad_rectangular exRagged exRagged rfl

/-- C5: `pad` returns none exactly when every row already has the same cell
count; otherwise it returns the same table with each shorter row extended to
the maximum row width by synthetic empty cells (blank rich text, empty attrs,
`colspan = rowspan = 1`) whose header flag is that of the row's last original
cell (false for an empty row), all other fields and the original cells
unchanged. -/
theorem pad_characterization (t : Table) :
    (Table.pad t = none ↔ uniformRows t = true) ∧
    ∀ t', Table.pad t = some t' →
      t'.id = t.id ∧ t'.url = t.url ∧ t'.caption = t.caption ∧ t'.attrs = t.attrs ∧
      t'.context = t.context ∧
      t'.rows = t.rows.map (fun r =>
        { r with cells :=
            r.cells ++ List.replicate (maxRowWidth t - r.cells.length) (padCellFor r) }) :=
  ⟨pad_none_iff t, fun t' h => pad_some_eq t t' h⟩

theorem pad_characterization_witness :
    (padOrKeep exRagged).rows = exRagged.rows.map (fun r =>
      { r with cells :=
          r.cells ++ List.replicate (maxRowWidth exRagged - r.cells.length) (padCellFor r) }) ∧
    (Table.pad (exTable []) = none ↔ uniformRows (exTable []) = true) :=
  ⟨((pad_characterization exRagged).2 (padOrKeep exRagged) rfl).2.2.2.2.2,
   (pad_characterization (exTable [])).1⟩

/-! ## C7: the auto-span stage of the orchestrator -/

theorem placeLoop_error_droppable (maxN : Nat) (isLast : Bool) (pi : Nat) (cell : Cell)
    (rowspan : Nat) : ∀ (n : Nat) (st : List Cell × Nat × Pending) (e : TableExtractorError),
    placeLoop maxN isLast pi cell rowspan n st = .error e → isDroppableSpanErr e = true := by
  intro n
  induction n with
  | zero =>
    intro st e h
    unfold placeLoop at h
    cases h
  | succ n ih =>
    intro st e h
    obtain ⟨acc, pj, m⟩ := st
    unfold placeLoop at h
    cases hf : Pending.find m (pi, pj) with
    | some c =>
      rw [hf] at h
      cases h
      rfl
    | none =>
      rw [hf] at h
      by_cases hover : maxN ≤ pj + 1
      · rw [if_pos hover] at h
        cases hl : isLast with
        | true => rw [hl] at h; simp at h
        | false =>
          rw [hl] at h
          simp only [Bool.false_eq_true, if_false] at h
          cases h
          rfl
      · rw [if_neg hover] at h
        exact ih _ e h

theorem processCell_error_droppable (maxN pi : Nat) (isLast : Bool) (ocell : Cell)
    (st : List Cell × Nat × Pending) (e : TableExtractorError)
    (h : processCell maxN pi isLast ocell st = .error e) : isDroppableSpanErr e = true := by
  unfold processCell at h
  exact placeLoop_error_droppable maxN isLast pi _ ocell.rowspan ocell.colspan _ e h

theorem processCells_error_droppable (maxN pi ncells : Nat) :
    ∀ (cs : List Cell) (ci : Nat) (st : List Cell × Nat × Pending) (e : TableExtractorError),
    processCells maxN pi ncells ci cs st = .error e → isDroppableSpanErr e = true := by
  intro cs
  induction cs with
  | nil =>
    intro ci st e h
    unfold processCells at h
    cases h
  | cons c cs ih =>
    intro ci st e h
    unfold processCells at h
    cases hpc : processCell maxN pi (ci = ncells - 1) c st with
    | error e2 =>
      rw [hpc] at h
      cases h
      exact processCell_error_droppable maxN pi _ c st e hpc
    | ok st1 =>
      rw [hpc] at h
      exact ih (ci + 1) st1 e h

theorem processRow_error_droppable (maxN pi : Nat) (row : Row) (m : Pending)
    (e : TableExtractorError) (h : processRow maxN pi row m = .error e) :
    isDroppableSpanErr e = true := by
  unfold processRow at h
  cases hpc : processCells maxN pi row.cells.length 0 row.cells ([], 0, m) with
  | error e2 =>
    rw [hpc] at h
    cases h
    exact processCells_error_droppable maxN pi _ row.cells 0 ([], 0, m) e hpc
  | ok st =>
    rw [hpc] at h
    simp only at h
    cases h

theorem spanRows_error_droppable (maxN : Nat) :
    ∀ (rows : List Row) (pi : Nat) (m : Pending) (e : TableExtractorError),
    spanRows maxN pi m rows = .error e → isDroppableSpanErr e = true := by
  intro rows
  induction rows with
  | nil =>
    intro pi m e h
    unfold spanRows at h
    cases h
  | cons row rest ih =>
    intro pi m e h
    unfold spanRows at h
    cases hpr : processRow maxN pi row m with
    | error e2 =>
      rw [hpr] at h
      cases h
      exact processRow_error_droppable maxN pi row m e hpr
    | ok rm =>
      rw [hpr] at h
      have h2 : (do
          let rs ← spanRows maxN (pi + 1) rm.2 rest
          Except.ok (rm.1 :: rs)) = Except.error e := h
      cases hsr : spanRows maxN (pi + 1) rm.2 rest with
      | error e2 =>
        rw [hsr] at h2
        cases h2
        exact ih (pi + 1) rm.2 e hsr
      | ok rs =>
        rw [hsr] at h2
        cases h2

/-- Every error `Table::span` can return is one of the two droppable kinds. -/
theorem span_error_droppable (t : Table) (e : TableExtractorError)
    (h : Table.span t = .error e) : isDroppableSpanErr e = true := by
  unfold Table.span at h
  by_cases hrows : t.rows.length = 0
  · rw [if_pos hrows] at h
    cases h
  · rw [if_neg hrows] at h
    simp only at h
    cases hsr : spanRows (maxNcols (computeCols t.rows)) 0 [] t.rows with
    | error e2 =>
      rw [hsr] at h
      cases h
      exact spanRows_error_droppable _ t.rows 0 [] e hsr
    | ok data =>
      rw [hsr] at h
      cases h

theorem autoSpanLoop_all_droppable :
    ∀ (results : List (Except TableExtractorError Table)),
    (∀ e, .error e ∈ results → isDroppableSpanErr e = true) →
    ∀ acc, autoSpanLoop acc results = .ok (acc ++ results.filterMap Except.toOption) := by
  intro results
  induction results with
  | nil =>
    intro _ acc
    simp [autoSpanLoop]
  | cons r rest ih =>
    intro h acc
    cases r with
    | ok t =>
      unfold autoSpanLoop
      rw [ih (fun e he => h e (List.mem_cons_of_mem _ he)) (acc ++ [t])]
      simp [Except.toOption]
    | error e =>
      unfold autoSpanLoop
      rw [if_pos (h e (List.mem_cons_self _ _)), ih (fun x hx => h x (List.mem_cons_of_mem _ hx)) acc]
      simp [Except.toOption]

theorem autoSpanLoop_abort (e : TableExtractorError) (he : isDroppableSpanErr e = false)
    (rs2 : List (Except TableExtractorError Table)) :
    ∀ (rs1 : List (Except TableExtractorError Table)),
    (∀ e', .error e' ∈ rs1 → isDroppableSpanErr e' = true) →
    ∀ acc, autoSpanLoop acc (rs1 ++ .error e :: rs2) = .error e := by
  intro rs1
  induction rs1 with
  | nil =>
    intro _ acc
    rw [List.nil_append]
    unfold autoSpanLoop
    rw [if_neg (by rw [he]; exact Bool.false_ne_true)]
  | cons r rest ih =>
    intro h acc
    cases r with
    | ok t =>
      rw [List.cons_append]
      unfold autoSpanLoop
      exact ih (fun x hx => h x (List.mem_cons_of_mem _ hx)) (acc ++ [t])
    | error e2 =>
      rw [List.cons_append]
      unfold autoSpanLoop
      rw [if_pos (h e2 (List.mem_cons_self _ _))]
      exact ih (fun x hx => h x (List.mem_cons_of_mem _ hx)) acc

/-- C7: with auto-span enabled, a table whose `span` fails (necessarily with
`OverlapSpanError` or `InvalidCellSpanError`) is dropped while the remaining
tables are processed and returned in order; and if a span step could fail
with any non-droppable kind of error, the first such error aborts the whole
call with that error. -/
theorem extract_tables_auto_span :
    (∀ tables : List Table,
       autoSpanFilter (tables.map Table.span) =
         .ok (tables.filterMap fun t => (Table.span t).toOption)) ∧
    (∀ (rs1 : List (Except TableExtractorError Table)) (e : TableExtractorError)
       (rs2 : List (Except TableExtractorError Table)),
       (∀ e', .error e' ∈ rs1 → isDroppableSpanErr e' = true) →
       isDroppableSpanErr e = false →
       autoSpanFilter (rs1 ++ .error e :: rs2) = .error e) := by
  constructor
  · intro tables
    unfold autoSpanFilter
    rw [autoSpanLoop_all_droppable (tables.map Table.span) ?_ []]
    · rw [List.nil_append, List.filterMap_map]
      rfl
    · intro e he
      rcases List.mem_map.mp he with ⟨t, _, hte⟩
      exact span_error_droppable t e hte
  · intro rs1 e rs2 h1 he
    unfold autoSpanFilter
    exact autoSpanLoop_abort e he rs2 rs1 h1 []

theorem extract_tables_auto_span_witness :
    autoSpanFilter ([exRagged, exOverlap].map Table.span) = .ok [exRagged] ∧
    autoSpanFilter [.error (.overlapSpanError ""), .error (.urlResolutionError "x")] =
      .error (.urlResolutionError "x") :=
  ⟨extract_tables_auto_span.1 [exRagged, exOverlap],
   extract_tables_auto_span.2 [.error (.overlapSpanError "")] (.urlResolutionError "x") []
     (by
       intro e' he'
       rw [show e' = TableExtractorError.overlapSpanError "" by simpa using he']
       rfl)
     rfl⟩

/-! ## C8 / C10: `SimpleTree` merging and the length invariant -/

/-- C8: `merge_subtree parent other` (for a valid `parent` of a well-formed
tree and a non-empty `other`): the node count grows by `other`'s count; node
`i` of `other` is stored at id `old_len + i`; every edge `(a, b)` of `other`
becomes the edge `(a + old_len, b + old_len)`; and `other`'s root, reindexed
by `old_len`, is appended as the new last child of `parent`. -/
theorem merge_subtree_spec (N : Type) (t : SimpleTree N) (parent : Nat)
    (other : SimpleTree N) (hwf : t.wf) (hp : parent < t.len) (hne : 0 < other.len) :
    (t.merge_subtree parent other).len = t.len + other.len ∧
    (∀ i, i < other.len →
      (t.merge_subtree parent other).nodes[t.len + i]? = other.nodes[i]?) ∧
    (∀ a b, other.hasEdge a b →
      (t.merge_subtree parent other).hasEdge (a + t.len) (b + t.len)) ∧
    (t.merge_subtree parent other).node2children[parent]? =
      some (t.node2children.getD parent [] ++ [other.root + t.len]) := by
  unfold SimpleTree.wf at hwf
  unfold SimpleTree.len at hp hne ⊢
  unfold SimpleTree.merge_subtree
  simp only
  refine ⟨by rw [List.length_append], ?_, ?_, ?_⟩
  · intro i hi
    rw [List.getElem?_append_right (Nat.le_add_right _ _), Nat.add_sub_cancel_left]
  · intro a b hab
    unfold SimpleTree.hasEdge at hab ⊢
    simp only
    have ha : a < other.node2children.length := by
      by_contra hc
      rw [List.getD_eq_getElem?_getD, List.getElem?_eq_none (by omega)] at hab
      exact absurd hab (List.not_mem_nil b)
    have hne2 : parent ≠ a + t.nodes.length := by omega
    rw [List.getD_eq_getElem?_getD, List.getElem?_set_ne hne2,
      List.getElem?_append_right (by rw [← hwf]; exact Nat.le_add_left _ _)]
    rw [← hwf, Nat.add_sub_cancel]
    have hmap : (other.node2children.map
        (List.map fun child_id => child_id + t.nodes.length))[a]? =
        some ((other.node2children.get ⟨a, ha⟩).map
          fun child_id => child_id + t.nodes.length) := by
      rw [List.getElem?_map, List.getElem?_eq_getElem ha]
      rfl
    rw [hmap]
    simp only [Option.getD_some]
    have : b ∈ other.node2children.get ⟨a, ha⟩ := by
      rw [List.getD_eq_getElem?_getD, List.getElem?_eq_getElem ha] at hab
      exact hab
    exact List.mem_map_of_mem (fun child_id => child_id + t.nodes.length) this
  · have hplen : parent < (t.node2children ++ other.node2children.map
        (List.map fun child_id => child_id + t.nodes.length)).length := by
      rw [List.length_append]
      omega
    rw [List.getElem?_set_eq hplen]
    congr 2
    rw [List.getD_append _ _ _ _ (by omega)]

theorem merge_subtree_spec_witness :
    (exT.merge_subtree 1 exS).len = exT.len + exS.len ∧
    (exT.merge_subtree 1 exS).nodes[exT.len + 0]? = exS.nodes[0]? ∧
    (exT.merge_subtree 1 exS).hasEdge (0 + exT.len) (1 + exT.len) ∧
    (exT.merge_subtree 1 exS).node2children[1]? =
      some (exT.node2children.getD 1 [] ++ [exS.root + exT.len]) :=
  have h := merge_subtree_spec Nat exT 1 exS (by decide) (by decide) (by decide)
  ⟨h.1, h.2.1 0 (by decide), h.2.2.1 0 1 (by decide), h.2.2.2⟩

/-- C10: every `SimpleTree` operation preserves the invariant that the node
list and the children-list list have the same length (for the two merge
operations, given well-formed inputs, and a valid root for the root-dropping
merge, whose Rust original would panic otherwise). -/
theorem simpleTree_ops_wf (N : Type) :
    (SimpleTree.empty : SimpleTree N).wf ∧
    (∀ n : N, (SimpleTree.new n).wf) ∧
    (∀ (t : SimpleTree N) (n : N), t.wf → (t.add_node n).1.wf) ∧
    (∀ (t : SimpleTree N) (p c : Nat), t.wf → (t.add_child p c).wf) ∧
    (∀ (t s : SimpleTree N) (p : Nat), t.wf → s.wf → (t.merge_subtree p s).wf) ∧
    (∀ (t s : SimpleTree N) (p : Nat), t.wf → s.wf → s.root < s.len →
      (t.merge_subtree_no_root p s).wf) := by
  refine ⟨rfl, fun n => rfl, ?_, ?_, ?_, ?_⟩
  · intro t n h
    unfold SimpleTree.wf at h
    unfold SimpleTree.add_node SimpleTree.wf
    simp only [List.length_append, List.length_cons, List.length_nil]
    omega
  · intro t p c h
    unfold SimpleTree.wf at h
    unfold SimpleTree.add_child SimpleTree.wf
    simp only [List.length_set]
    exact h
  · intro t s p ht hs
    unfold SimpleTree.wf at ht hs
    unfold SimpleTree.merge_subtree SimpleTree.wf
    simp only [List.length_set, List.length_append, List.length_map]
    omega
  · intro t s p ht hs hroot
    unfold SimpleTree.len at hroot
    unfold SimpleTree.wf at ht hs
    unfold SimpleTree.merge_subtree_no_root SimpleTree.wf
    simp only [List.length_append, List.length_set, List.length_eraseIdx, List.length_map]
    rw [if_pos (by omega), if_pos (by omega)]
    omega

theorem simpleTree_ops_wf_witness :
    (SimpleTree.empty : SimpleTree Nat).wf ∧
    ((SimpleTree.new (5 : Nat)).add_node 7).1.wf ∧
    (exT.add_child 0 1).wf ∧
    (exT.merge_subtree 0 exS).wf ∧
    (exT.merge_subtree_no_root 0 exS).wf :=
  have h := simpleTree_ops_wf Nat
  ⟨h.1, h.2.2.1 (SimpleTree.new 5) 7 (h.2.1 5), h.2.2.2.1 exT 0 1 (by decide),
   h.2.2.2.2.1 exT exS 0 (by decide) (by decide),
   h.2.2.2.2.2 exT exS 0 (by decide) (by decide) (by decide)⟩
